import Mathlib

/-!
Shallow embedding of the natural-language setting-resolution engine of
`src/tools/botSettingsTools.ts` (the `BotSettingsTools.smartBotSettings` pipeline:
`normalizeText`, `detectIntent`, `extractValue`, `findSettingKey`, and the shipped
`botSettingKeys` catalog and `intentKeywords` table).

Modelling conventions:
* JS strings are Lean `String`s; the regex-based pieces of the source
  (`split(/\s+/)`, `replace(/[\-_]/g, ' ')`, `replace(/[^\w\s]/gi, '')`,
  `replace(/\s+/g, ' ')`, the three value-capture patterns, `includes`) are
  implemented character-by-character on `String.data` with the same semantics
  for the ASCII data this engine processes.
* JS numbers are modelled as exact rationals `ℚ`; the scores manipulated here
  are sums, averages and small divisions of values in `[0, 1]`, so exact
  rational arithmetic matches the intended real-number semantics of the spec.
* The external fuzzy-search library (`fuse.search`) is not part of this
  repository; following §4.4 of the spec it is modelled as an abstract
  deterministic function `search : String → List FuseResult` returning hits
  over the catalog with scores in `[0, 1]` (0 = perfect match, inverted by the
  code to a similarity via `1 - score`).  The predicate `Admissible` states
  exactly those properties.
* The `zod` validation of `SmartBotSettingsSchema` (`text: z.string().min(1)`,
  `value: z.string().optional()`) and the thrown `ValidationError` are modelled
  with `Except ValidationFailure`.
-/

set_option maxRecDepth 8000
set_option maxHeartbeats 2000000

/-- Whitespace characters (the regex whitespace class restricted to the ASCII
whitespace occurring in this engine's data). -/
def isWsChar (c : Char) : Bool :=
  c == ' ' || c == '\t' || c == '\n' || c == '\r'

/-- Word characters: the regex word class `A-Za-z0-9_`. -/
def isWordChar (c : Char) : Bool :=
  (decide ('a' ≤ c) && decide (c ≤ 'z')) ||
  (decide ('A' ≤ c) && decide (c ≤ 'Z')) ||
  (decide ('0' ≤ c) && decide (c ≤ '9')) ||
  c == '_'

/-- The `replace(/[\-_]/g, ' ')` step of `normalizeText`. -/
def dashToSpace (c : Char) : Char :=
  if c == '-' || c == '_' then ' ' else c

/-- Collapse every maximal run of whitespace to a single space
(the `replace(/\s+/g, ' ')` step). -/
def collapseWs : List Char → List Char
  | [] => []
  | [c] => [if isWsChar c then ' ' else c]
  | c :: d :: cs =>
    if isWsChar c && isWsChar d then collapseWs (d :: cs)
    else (if isWsChar c then ' ' else c) :: collapseWs (d :: cs)

/-- Drop trailing whitespace (half of JS `trim`). -/
def dropTrailingWs : List Char → List Char
  | [] => []
  | c :: cs =>
    match dropTrailingWs cs with
    | [] => if isWsChar c then [] else [c]
    | r => c :: r

/-- JS `trim`: drop leading and trailing whitespace. -/
def trimWs (l : List Char) : List Char :=
  dropTrailingWs (l.dropWhile isWsChar)

/-- The character-level steps of `normalizeText`: lower-case, map `-` and `_`
to spaces, strip everything that is neither a word character nor whitespace. -/
def preClean (s : String) : List Char :=
  ((s.data.map Char.toLower).map dashToSpace).filter (fun c => isWordChar c || isWsChar c)

/-- The source's `normalizeText`: lower-case, map `-` and `_` to spaces, strip
everything that is neither a word character nor whitespace, collapse whitespace
runs to single spaces, trim. -/
def normalizeText (s : String) : String :=
  String.mk (trimWs (collapseWs (preClean s)))

/-- Split a character list at every single space, keeping empty chunks
(the behaviour of JS `split` with a one-character separator). -/
def splitSp : List Char → List (List Char)
  | [] => [[]]
  | c :: cs =>
    if c == ' ' then [] :: splitSp cs
    else
      match splitSp cs with
      | [] => [[c]]
      | w :: ws => (c :: w) :: ws

/-- JS `split(/\s+/)`: every maximal whitespace run separates chunks, and a
leading or trailing run yields an empty first or last chunk.  Collapsing runs
to single spaces first and then splitting at each space realises exactly
that. -/
def jsSplitWs (s : String) : List String :=
  (splitSp (collapseWs s.data)).map String.mk

/-- Prefix test on character lists. -/
def isPrefixL : List Char → List Char → Bool
  | [], _ => true
  | _ :: _, [] => false
  | a :: as, b :: bs => a == b && isPrefixL as bs

/-- Substring occurrence test on character lists (JS `includes`). -/
def hasSubstr : List Char → List Char → Bool
  | [], n => isPrefixL n []
  | c :: t, n => isPrefixL n (c :: t) || hasSubstr t n

/-- JS `String.includes`. -/
def strIncludes (hay needle : String) : Bool :=
  hasSubstr hay.data needle.data

/-- JS `Array.join(' ')`. -/
def joinSp : List String → String
  | [] => ""
  | [s] => s
  | s :: rest => s ++ " " ++ joinSp rest

/-- The three user intents of the engine (`IntentType` in `src/types/index.ts`). -/
inductive IntentType
  | get
  | update
  | delete
  deriving DecidableEq

/-- Trigger phrases of the Get category (first entry of `intentKeywords`). -/
def getPhrases : List String :=
  ["what is", "get", "show me", "display", "see", "status", "current value"]

/-- Trigger phrases of the Update category (second entry of `intentKeywords`). -/
def updatePhrases : List String :=
  ["change", "set", "update", "make", "turn on", "turn off", "enable", "disable"]

/-- Trigger phrases of the Delete category (third entry of `intentKeywords`). -/
def deletePhrases : List String :=
  ["delete", "remove", "clear", "unset"]

/-- The intent keyword table, in its declaration order (JS object literals
preserve string-key insertion order, which `Object.entries` reproduces). -/
def intentKeywords : List (IntentType × List String) :=
  [(IntentType.get, getPhrases), (IntentType.update, updatePhrases),
   (IntentType.delete, deletePhrases)]

/-- The source's `detectIntent`: first category, in declaration order, one of
whose phrases occurs in the normalized text. -/
def detectIntent (normalizedText : String) : Option IntentType :=
  intentKeywords.findSome? fun p =>
    if p.2.any (fun keyword => strIncludes normalizedText keyword) then some p.1 else none

/-- Character class of the value-capture group `[\w\s-]`. -/
def isCapChar (c : Char) : Bool :=
  isWordChar c || isWsChar c || c == '-'

/-- First-match semantics of a regex of shape `lit([\w\s-]+)`: scan left to
right for an occurrence of the literal followed by at least one class
character, and capture the maximal class-character run there. -/
def regexCapture (lit : List Char) : List Char → Option (List Char)
  | [] => none
  | c :: cs =>
    if isPrefixL lit (c :: cs) then
      let cap := ((c :: cs).drop lit.length).takeWhile isCapChar
      if cap.isEmpty then regexCapture lit cs else some cap
    else regexCapture lit cs

/-- The source's `extractValue`: try the patterns `/ to ([\w\s-]+)/`,
`/= ([\w\s-]+)/`, `/ as ([\w\s-]+)/` in order and return the first capture,
trimmed. -/
def extractValue (normalizedText : String) : Option String :=
  [" to ", "= ", " as "].findSome? fun pattern =>
    match regexCapture pattern.data normalizedText.data with
    | some cap => some (String.mk (trimWs cap))
    | none => none

/-- A catalog entry (`BotSettingKey` in `src/types/index.ts`, the fields this
engine reads). -/
structure BotSettingKey where
  key : String
  description : String
  keywords : List String
  deriving DecidableEq

/-- The shipped `botSettingKeys` catalog. -/
def botSettingKeys : List BotSettingKey :=
  [⟨"website-chatbot-primary-color", "Primary color of the website chatbot", ["main color", "primary", "theme color", "chatbot color"]⟩,
   ⟨"website-chatbot-secondary-color", "Secondary color of the website chatbot", ["secondary", "accent color", "alternate color", "chatbot color"]⟩,
   ⟨"website-chatbot-bot-image", "Image/avatar for the chatbot", ["bot image", "avatar", "chatbot picture", "icon"]⟩,
   ⟨"website-chatbot-input-disabled", "Disable the chatbot input field", ["disable input", "input off", "no typing", "input field"]⟩,
   ⟨"website-chatbot-bot-welcoming-text", "Welcoming text shown by the chatbot", ["welcome message", "greeting", "hello", "intro text"]⟩,
   ⟨"website-chatbot-popup", "Enable or disable chatbot popup", ["popup", "show popup", "open chatbot", "pop-up"]⟩,
   ⟨"website-chatbot-loginform", "Show login form in chatbot", ["login", "sign in", "authentication", "login form"]⟩,
   ⟨"stripe_account_id", "Stripe account ID for payments", ["stripe", "payment", "account id", "stripe id"]⟩,
   ⟨"access_token", "Access token for API authentication", ["api token", "access", "authentication", "token"]⟩,
   ⟨"website-chatbot-preferred-language", "Preferred language for the chatbot", ["language", "locale", "default language", "chatbot language"]⟩,
   ⟨"website-chatbot-default-launcher", "Default launcher for the chatbot", ["launcher", "default button", "open button", "start button"]⟩,
   ⟨"website-chatbot-popup-message", "Message shown in chatbot popup", ["popup message", "popup text", "notification", "chatbot popup"]⟩,
   ⟨"delete-conversation-confirm", "Confirmation for deleting conversation", ["delete conversation", "confirm delete", "remove chat", "clear conversation"]⟩,
   ⟨"has_sound", "Enable or disable sound notifications", ["sound", "audio", "mute", "notification sound"]⟩,
   ⟨"website-chatbot-bot-image-url", "URL for the chatbot image", ["image url", "bot image", "avatar url", "picture link"]⟩,
   ⟨"human-help-form", "", []⟩,
   ⟨"website-chatbot-move-left", "", []⟩,
   ⟨"website-chatbot-icon-type", "", []⟩,
   ⟨"translate_client", "", []⟩,
   ⟨"website-chatbot-menu-languages", "", []⟩,
   ⟨"broadcast_labels", "", []⟩,
   ⟨"website-chatbot-composer-buttons", "", []⟩,
   ⟨"wizard_page", "", []⟩,
   ⟨"landing-bot-bg-image", "", []⟩,
   ⟨"language", "", []⟩,
   ⟨"icon-as-get-started", "", []⟩,
   ⟨"top-close-chat", "", []⟩,
   ⟨"show-chat-human-help", "", []⟩,
   ⟨"landing-bot-bg-style", "", []⟩,
   ⟨"website-chatbot-popup-once", "", []⟩,
   ⟨"whitelabel-type", "", []⟩,
   ⟨"website-chatbot-speech-button", "", []⟩,
   ⟨"website-chatbot-attachment-button", "", []⟩,
   ⟨"website-chatbot-calender-disabled", "", []⟩,
   ⟨"website-chatbot-height", "", []⟩,
   ⟨"chat-delete-completely", "", []⟩,
   ⟨"website-track-users", "", []⟩,
   ⟨"mobile-hide-chatbot", "", []⟩,
   ⟨"mobile-no-chatbot-popup", "", []⟩,
   ⟨"mobile-chatbot-height", "", []⟩,
   ⟨"inline-form-field-responses", "", []⟩,
   ⟨"excluded-urls", "", []⟩,
   ⟨"website-chatbot-get-started", "", []⟩,
   ⟨"website-chatbot-btn-border-color", "", []⟩,
   ⟨"website-chatbot-btn-padding", "", []⟩,
   ⟨"website-chatbot-btn-border-width", "", []⟩,
   ⟨"website-chatbot-btn-bg-color", "", []⟩,
   ⟨"website-chatbot-font-size", "", []⟩,
   ⟨"website-chatbot-btn-text-color", "", []⟩,
   ⟨"website-chatbot-btn-qr-inline", "", []⟩,
   ⟨"website-chatbot-btn-style", "", []⟩,
   ⟨"website-chatbot-font-family", "", []⟩,
   ⟨"website-chatbot-user-says-bg", "", []⟩,
   ⟨"website-chatbot-bot-says-bg", "", []⟩,
   ⟨"website-chatbot-user-says-color", "", []⟩,
   ⟨"website-chatbot-btn-mt", "", []⟩,
   ⟨"website-chatbot-home-message-color", "", []⟩,
   ⟨"login-form-logo", "", []⟩,
   ⟨"get-started-title", "", []⟩,
   ⟨"website-chatbot-qr-usr-custom-bg", "", []⟩,
   ⟨"excluded-ips", "", []⟩,
   ⟨"website-chatbot-header-gradient", "", []⟩,
   ⟨"website-chatbot-rounded-blocks", "", []⟩,
   ⟨"website-chatbot-text-color", "", []⟩,
   ⟨"search-for-chinese-keywords", "", []⟩,
   ⟨"bot-activation-time", "", []⟩,
   ⟨"previous_story_attribute", "", []⟩,
   ⟨"interactive_activation", "", []⟩,
   ⟨"customer-support-bot", "", []⟩,
   ⟨"bot-daily-limit-users", "", []⟩,
   ⟨"block-bot-user", "", []⟩,
   ⟨"bot-preg-match", "", []⟩,
   ⟨"form-submission-attributes", "", []⟩,
   ⟨"translation-source-language", "", []⟩,
   ⟨"admin-invitaion-email", "", []⟩,
   ⟨"user-company-name", "", []⟩,
   ⟨"notification-to-all-agents", "", []⟩,
   ⟨"whatsapp_daily_limit", "", []⟩,
   ⟨"whatsapp_monthly_limit", "", []⟩,
   ⟨"website-chatbot-bot-name", "", []⟩,
   ⟨"website-chatbot-home-message", "", []⟩,
   ⟨"website-chatbot-bot-email", "", []⟩,
   ⟨"industory", "", []⟩,
   ⟨"whatsapp-human-help", "", []⟩,
   ⟨"website-chatbot-header-solid", "", []⟩,
   ⟨"industry", "", []⟩,
   ⟨"live_chat_order", "", []⟩,
   ⟨"wizard_id", "", []⟩,
   ⟨"page-message-sound", "", []⟩,
   ⟨"csat-settings-enabled", "", []⟩,
   ⟨"trending_queries", "", []⟩,
   ⟨"website-chatbot-start-conversation-title", "", []⟩,
   ⟨"website-chatbot-start-conversation-subtitle", "", []⟩,
   ⟨"publish-to-ai", "", []⟩,
   ⟨"open-ai-key", "", []⟩,
   ⟨"scroll-bar-enabled", "", []⟩,
   ⟨"delete-user-conversation-on-get-started", "", []⟩,
   ⟨"failure_through_sms", "", []⟩]

/-- One hit of the external fuzzy search (`fuse.search` with `includeScore`):
the found catalog item and the library's score, 0 meaning a perfect match. -/
structure FuseResult where
  item : BotSettingKey
  score : Option ℚ
  deriving DecidableEq

/-- The properties §4.4 of the spec requires of the external similarity
search: hits come from the indexed catalog and scores lie in `[0, 1]`.
Determinism is inherent in modelling it as a function. -/
def Admissible (search : String → List FuseResult) : Prop :=
  ∀ t r, r ∈ search t →
    r.item ∈ botSettingKeys ∧ ∀ s, r.score = some s → 0 ≤ s ∧ s ≤ 1

/-- The combined searchable word list of an entry:
`[entry.key, entry.description, ...entry.keywords].map(normalize).join(' ').split(/\s+/)`. -/
def entryWordList (entry : BotSettingKey) : List String :=
  jsSplitWs (joinSp (([entry.key, entry.description] ++ entry.keywords).map normalizeText))

/-- The overlap score of one entry:
`|entry words ∩ input words| / |entry words|` counted with multiplicity on the
entry side, exactly as the source's `filter(...).length / keywords.length`. -/
def overlapScore (entry : BotSettingKey) (inputWords : List String) : ℚ :=
  (((entryWordList entry).filter (fun word => inputWords.contains word)).length : ℚ) /
    ((entryWordList entry).length : ℚ)

/-- The source's `botSettingKeys.findIndex(e => e.key === result.item.key)`. -/
def settingIdx (k : String) : Int :=
  match botSettingKeys.findIdx? (fun e => e.key == k) with
  | some i => (i : Int)
  | none => -1

/-- The hybrid score the loop of `findSettingKey` computes for one similarity
hit: average of inverted fuse score and overlap score, with a flat `0.2` boost
inside the average when some input word occurs inside a word of the entry's
key. -/
def resultHybrid (inputWords : List String) (r : FuseResult) : ℚ :=
  let idx := settingIdx r.item.key
  let fuseScore : ℚ := 1 - r.score.getD 1
  let overlap : ℚ :=
    if idx < 0 then 0
    else (botSettingKeys.map (fun e => overlapScore e inputWords)).getD idx.toNat 0
  let keyWords := jsSplitWs (normalizeText r.item.key)
  let partialMatch := inputWords.any fun word => keyWords.any fun kw => strIncludes kw word
  if partialMatch then (fuseScore + overlap + 0.2) / 2 else (fuseScore + overlap) / 2

/-- The selection loop of `findSettingKey`: track the best strictly-greater
hybrid score (`bestScore` starts at `-Infinity`, modelled by `none`). -/
def fuseLoop (inputWords : List String) :
    List FuseResult → Int → Option ℚ → ℚ → Int × ℚ
  | [], bestIdx, _, confidence => (bestIdx, confidence)
  | r :: rest, bestIdx, bestScore, confidence =>
    let idx := settingIdx r.item.key
    let hybrid := resultHybrid inputWords r
    let better : Bool :=
      match bestScore with
      | none => true
      | some b => decide (b < hybrid)
    if better then fuseLoop inputWords rest idx (some hybrid) hybrid
    else fuseLoop inputWords rest bestIdx bestScore confidence

/-- Return value of `findSettingKey` (`possibleMatches` is optional). -/
structure KeySearchOutcome where
  key : Option String
  confidence : ℚ
  possibleMatches : Option (List String)
  deriving DecidableEq

/-- The source's `findSettingKey`: run the similarity search on the raw text,
score every hit, and either fail with the top (up to 3) hit keys when no hit
resolved to a catalog index, or return the best entry's key with its hybrid
score as confidence. -/
def findSettingKey (search : String → List FuseResult)
    (text normalizedText : String) : KeySearchOutcome :=
  let fuseResults := search text
  let inputWords := jsSplitWs normalizedText
  let best := fuseLoop inputWords fuseResults (-1) none 0
  if best.1 = -1 then
    { key := none, confidence := 0,
      possibleMatches :=
        some (((fuseResults.take 3).map (fun r => r.item.key)).filter (fun k => !k.isEmpty)) }
  else
    { key := some (((botSettingKeys[best.1.toNat]?).map (fun e => e.key)).getD ""),
      confidence := best.2, possibleMatches := none }

/-- The resolution result (`SmartBotSettingsResult` in `src/types/index.ts`);
`possibleMatches := none` models the field being absent. -/
structure SmartResult where
  success : Bool
  intent : Option IntentType
  key : Option String
  value : Option String
  confidence : ℚ
  possibleMatches : Option (List String)
  message : String
  deriving DecidableEq

/-- The typed validation failure thrown on malformed input. -/
structure ValidationFailure where
  message : String
  deriving DecidableEq

/-- JS falsiness of a nullable string (`!x` is true for `null`, `undefined`
and `""`). -/
def jsFalsyStr : Option String → Bool
  | none => true
  | some s => s.isEmpty

/-- The source's `smartBotSettings`: validate (`text` must be non-empty),
normalize, detect an intent, take the explicit value unless the intent is
update and the explicit value is missing or empty (then extract one), resolve
the key, and assemble the result; `0.5` is the confidence threshold. -/
def smartBotSettings (search : String → List FuseResult)
    (text : String) (value : Option String) : Except ValidationFailure SmartResult :=
  if text.length < 1 then .error ⟨"Invalid input parameters"⟩
  else
    let normalizedText := normalizeText text
    match detectIntent normalizedText with
    | none =>
      .ok { success := false, intent := none, key := none, value := none, confidence := 0,
            possibleMatches := none, message := "Unable to determine user intent" }
    | some intent =>
      let extractedValue :=
        if decide (intent = IntentType.update) && jsFalsyStr value then
          extractValue normalizedText
        else value
      let outcome := findSettingKey search text normalizedText
      if jsFalsyStr outcome.key || decide (outcome.confidence < 0.5) then
        .ok { success := false, intent := some intent, key := none, value := extractedValue,
              confidence := outcome.confidence,
              possibleMatches := some (outcome.possibleMatches.getD []),
              message := "Low confidence in key match" }
      else
        .ok { success := true, intent := some intent, key := outcome.key,
              value := extractedValue, confidence := outcome.confidence,
              possibleMatches := none, message := "Key and value resolved successfully" }

/-- Two successive calls of the resolver with the same arguments (there is no
state to thread between them: the engine reads only the immutable module-level
catalog and tables). -/
def resolveTwice (search : String → List FuseResult) (text : String)
    (value : Option String) :
    Except ValidationFailure SmartResult × Except ValidationFailure SmartResult :=
  (smartBotSettings search text value, smartBotSettings search text value)

/-- Appending a list of words to an instruction, each separated by a space. -/
def appendKeywords (text : String) (ks : List String) : String :=
  ks.foldl (fun acc k => acc ++ " " ++ k) text

/-- Accumulator pass computing the maximal non-whitespace runs of a character
list (used to reason about which words `normalizeText` followed by splitting
produces). -/
def wordTokensGo : List Char → List Char → List (List Char)
  | [], acc => if acc.isEmpty then [] else [acc.reverse]
  | c :: cs, acc =>
    if isWsChar c then
      if acc.isEmpty then wordTokensGo cs []
      else acc.reverse :: wordTokensGo cs []
    else wordTokensGo cs (c :: acc)

/-- The maximal non-whitespace runs of a character list. -/
def wordTokens (l : List Char) : List (List Char) :=
  wordTokensGo l []

/-- Prepend characters onto the first chunk of a split result. -/
def consHead (p : List Char) : List (List Char) → List (List Char)
  | [] => [p]
  | w :: ws => (p ++ w) :: ws

/-- Every whitespace character of the list is a plain space. -/
def AllSpWs (l : List Char) : Prop :=
  ∀ c ∈ l, isWsChar c = true → c = ' '

/-- No two adjacent whitespace characters. -/
def NoWsPair : List Char → Prop
  | c :: d :: cs => ¬(isWsChar c = true ∧ isWsChar d = true) ∧ NoWsPair (d :: cs)
  | _ => True

/-- The first character, if any, is not whitespace. -/
def HeadNotWs : List Char → Prop
  | [] => True
  | c :: _ => isWsChar c = false

/-- The last character, if any, is not whitespace. -/
def LastNotWs : List Char → Prop
  | [] => True
  | [c] => isWsChar c = false
  | _ :: c :: cs => LastNotWs (c :: cs)

/-- The catalog entry for the primary chatbot color (the first entry of
`botSettingKeys`). -/
def primaryEntry : BotSettingKey :=
  ⟨"website-chatbot-primary-color", "Primary color of the website chatbot",
   ["main color", "primary", "theme color", "chatbot color"]⟩

/-- The catalog entry for the Stripe account id (the eighth entry of
`botSettingKeys`). -/
def stripeEntry : BotSettingKey :=
  ⟨"stripe_account_id", "Stripe account ID for payments",
   ["stripe", "payment", "account id", "stripe id"]⟩

/-- The catalog entry for the access token (the ninth entry of
`botSettingKeys`). -/
def accessEntry : BotSettingKey :=
  ⟨"access_token", "Access token for API authentication",
   ["api token", "access", "authentication", "token"]⟩

/-- A concrete admissible similarity search: one weak hit (score `0.9`) for
the Stripe entry on one fixed query. -/
def stripeSearch : String → List FuseResult := fun t =>
  if t = "set xyz please" then [⟨stripeEntry, some (9/10)⟩] else []

/-- A concrete admissible similarity search: one perfect hit (score `0`) for
the access-token entry on one fixed query. -/
def boostSearch : String → List FuseResult := fun t =>
  if t = "get access token for api authentication" then [⟨accessEntry, some 0⟩] else []

/-- A concrete admissible similarity search: one perfect hit (score `0`) for
the primary-color entry on one fixed query. -/
def primarySearch : String → List FuseResult := fun t =>
  if t = "set main color to X" then [⟨primaryEntry, some 0⟩] else []

/-! ### Basic lemmas about the string utilities -/

lemma splitSp_ne_nil (l : List Char) : splitSp l ≠ [] := by
  cases l with
  | nil => simp [splitSp]
  | cons c cs =>
    unfold splitSp
    split
    · simp
    · split <;> simp

lemma isPrefixL_iff (n h : List Char) : isPrefixL n h = true ↔ ∃ s, h = n ++ s := by
  induction n generalizing h with
  | nil => simp [isPrefixL]
  | cons a as ih =>
    cases h with
    | nil => simp [isPrefixL]
    | cons b bs =>
      simp only [isPrefixL, Bool.and_eq_true, beq_iff_eq, ih, List.cons_append,
        List.cons.injEq]
      constructor
      · rintro ⟨hab, s, hs⟩
        exact ⟨s, hab.symm, hs⟩
      · rintro ⟨s, hab, hs⟩
        exact ⟨hab.symm, s, hs⟩

lemma hasSubstr_iff (h n : List Char) : hasSubstr h n = true ↔ ∃ p s, h = p ++ n ++ s := by
  induction h with
  | nil =>
    simp only [hasSubstr, isPrefixL_iff]
    constructor
    · rintro ⟨s, hs⟩
      exact ⟨[], s, by simpa using hs⟩
    · rintro ⟨p, s, hs⟩
      refine ⟨s, ?_⟩
      rcases List.append_eq_nil.mp hs.symm with ⟨h1, h2⟩
      rcases List.append_eq_nil.mp h1 with ⟨h3, h4⟩
      simp [h2, h3, h4]
  | cons c t ih =>
    simp only [hasSubstr, Bool.or_eq_true, isPrefixL_iff, ih]
    constructor
    · rintro (⟨s, hs⟩ | ⟨p, s, hs⟩)
      · exact ⟨[], s, by simpa using hs⟩
      · exact ⟨c :: p, s, by simp [hs]⟩
    · rintro ⟨p, s, hs⟩
      cases p with
      | nil => exact Or.inl ⟨s, by simpa using hs⟩
      | cons c2 p2 =>
        right
        simp only [List.cons_append, List.cons.injEq] at hs
        exact ⟨p2, s, hs.2⟩

lemma strIncludes_trans {a b c : String} (h1 : strIncludes b a = true)
    (h2 : strIncludes c b = true) : strIncludes c a = true := by
  unfold strIncludes at h1 h2 ⊢
  rw [hasSubstr_iff] at h1 h2 ⊢
  obtain ⟨p, s, hb⟩ := h1
  obtain ⟨q, r, hc⟩ := h2
  exact ⟨q ++ p, s ++ r, by simp [hc, hb]⟩

lemma detectIntent_eq (nt : String) :
    detectIntent nt =
      if getPhrases.any (fun k => strIncludes nt k) then some IntentType.get
      else if updatePhrases.any (fun k => strIncludes nt k) then some IntentType.update
      else if deletePhrases.any (fun k => strIncludes nt k) then some IntentType.delete
      else none := by
  unfold detectIntent intentKeywords
  cases hg : getPhrases.any (fun k => strIncludes nt k) <;>
    cases hu : updatePhrases.any (fun k => strIncludes nt k) <;>
      cases hd : deletePhrases.any (fun k => strIncludes nt k) <;>
        simp [List.findSome?, hg, hu, hd]

lemma not_length_lt_one {t : String} (ht : t ≠ "") : ¬ t.length < 1 := by
  intro hlt
  apply ht
  cases t with
  | mk data =>
    have h0 : data.length = 0 := Nat.lt_one_iff.mp hlt
    have hnil : data = [] := List.eq_nil_of_length_eq_zero h0
    subst hnil
    rfl

lemma append_ne_empty_right (a b : String) (hb : b.data ≠ []) : a ++ b ≠ "" := by
  intro h
  apply hb
  cases a with
  | mk la =>
    cases b with
    | mk lb =>
      have hd : la ++ lb = ([] : List Char) := congrArg String.data h
      exact (List.append_eq_nil.mp hd).2

/-! ### Lemmas about the selection loop and `findSettingKey` -/

lemma settingIdx_nonneg {e : BotSettingKey} (he : e ∈ botSettingKeys) :
    0 ≤ settingIdx e.key := by
  unfold settingIdx
  cases hfi : botSettingKeys.findIdx? (fun x => x.key == e.key) with
  | some i => simp
  | none =>
    exfalso
    have hall := List.findIdx?_eq_none_iff.mp hfi e he
    simp at hall

lemma fuseLoop_cons_none (iw : List String) (r : FuseResult) (rest : List FuseResult)
    (b : Int) (c : ℚ) :
    fuseLoop iw (r :: rest) b none c =
      fuseLoop iw rest (settingIdx r.item.key) (some (resultHybrid iw r)) (resultHybrid iw r) :=
  rfl

lemma fuseLoop_cons_some (iw : List String) (r : FuseResult) (rest : List FuseResult)
    (b : Int) (x : ℚ) (c : ℚ) :
    fuseLoop iw (r :: rest) b (some x) c =
      if x < resultHybrid iw r then
        fuseLoop iw rest (settingIdx r.item.key) (some (resultHybrid iw r)) (resultHybrid iw r)
      else fuseLoop iw rest b (some x) c := by
  by_cases h : x < resultHybrid iw r <;> simp [fuseLoop, h]

lemma fuseLoop_idx_nonneg (iw : List String) (rest : List FuseResult) :
    ∀ (b : Int) (bs : Option ℚ) (c : ℚ), 0 ≤ b →
      (∀ r ∈ rest, r.item ∈ botSettingKeys) → 0 ≤ (fuseLoop iw rest b bs c).1 := by
  induction rest with
  | nil => intro b bs c hb _; simpa [fuseLoop] using hb
  | cons r rest ih =>
    intro b bs c hb hmem
    have hidx : 0 ≤ settingIdx r.item.key := settingIdx_nonneg (hmem r (by simp))
    simp only [fuseLoop]
    split
    · exact ih _ _ _ hidx (fun x hx => hmem x (by simp [hx]))
    · exact ih _ _ _ hb (fun x hx => hmem x (by simp [hx]))

lemma fuseLoop_conf_mem_ub (iw : List String) (rest : List FuseResult) :
    ∀ (b : Int) (x : ℚ),
      ((fuseLoop iw rest b (some x) x).2 = x ∨
        ∃ r ∈ rest, (fuseLoop iw rest b (some x) x).2 = resultHybrid iw r) ∧
      x ≤ (fuseLoop iw rest b (some x) x).2 ∧
      (∀ r ∈ rest, resultHybrid iw r ≤ (fuseLoop iw rest b (some x) x).2) := by
  induction rest with
  | nil => intro b x; simp [fuseLoop]
  | cons r rest ih =>
    intro b x
    rw [fuseLoop_cons_some]
    by_cases h : x < resultHybrid iw r
    · rw [if_pos h]
      obtain ⟨hmem, hle, hub⟩ := ih (settingIdx r.item.key) (resultHybrid iw r)
      refine ⟨?_, le_trans (le_of_lt h) hle, ?_⟩
      · rcases hmem with h1 | ⟨r2, hr2, he⟩
        · exact Or.inr ⟨r, by simp, h1⟩
        · exact Or.inr ⟨r2, by simp [hr2], he⟩
      · intro r2 hr2
        rcases List.mem_cons.mp hr2 with h2 | h2
        · subst h2; exact hle
        · exact hub r2 h2
    · rw [if_neg h]
      obtain ⟨hmem, hle, hub⟩ := ih b x
      refine ⟨?_, hle, ?_⟩
      · rcases hmem with h1 | ⟨r2, hr2, he⟩
        · exact Or.inl h1
        · exact Or.inr ⟨r2, by simp [hr2], he⟩
      · intro r2 hr2
        rcases List.mem_cons.mp hr2 with h2 | h2
        · subst h2; exact le_trans (not_lt.mp h) hle
        · exact hub r2 h2

lemma fuseLoop_conf_bounds (iw : List String) (rest : List FuseResult) :
    ∀ (b : Int) (bs : Option ℚ) (c : ℚ), 0 ≤ c → c ≤ 11/10 →
      (∀ r ∈ rest, 0 ≤ resultHybrid iw r ∧ resultHybrid iw r ≤ 11/10) →
      0 ≤ (fuseLoop iw rest b bs c).2 ∧ (fuseLoop iw rest b bs c).2 ≤ 11/10 := by
  induction rest with
  | nil => intro b bs c h0 h1 _; simpa [fuseLoop] using ⟨h0, h1⟩
  | cons r rest ih =>
    intro b bs c h0 h1 hall
    simp only [fuseLoop]
    split
    · exact ih _ _ _ (hall r (by simp)).1 (hall r (by simp)).2
        (fun x hx => hall x (by simp [hx]))
    · exact ih _ _ _ h0 h1 (fun x hx => hall x (by simp [hx]))

lemma findSettingKey_empty (search : String → List FuseResult) (t nt : String)
    (h : search t = []) : findSettingKey search t nt = ⟨none, 0, some []⟩ := by
  unfold findSettingKey
  rw [h]
  rfl

lemma findSettingKey_pos (search : String → List FuseResult) (t nt : String)
    (hne : search t ≠ []) (hmem : ∀ r ∈ search t, r.item ∈ botSettingKeys) :
    findSettingKey search t nt =
      ⟨some (((botSettingKeys[(fuseLoop (jsSplitWs nt) (search t) (-1) none 0).1.toNat]?).map
          (fun e => e.key)).getD ""),
       (fuseLoop (jsSplitWs nt) (search t) (-1) none 0).2, none⟩ := by
  have h1 : 0 ≤ (fuseLoop (jsSplitWs nt) (search t) (-1) none 0).1 := by
    cases hs : search t with
    | nil => exact absurd hs hne
    | cons r rest =>
      rw [fuseLoop_cons_none]
      refine fuseLoop_idx_nonneg _ _ _ _ _ ?_ ?_
      · exact settingIdx_nonneg (hmem r (by simp [hs]))
      · intro x hx; exact hmem x (by simp [hs, hx])
  have h2 : ¬ ((fuseLoop (jsSplitWs nt) (search t) (-1) none 0).1 = -1) := by
    intro heq
    rw [heq] at h1
    norm_num at h1
  unfold findSettingKey
  rw [if_neg h2]

/-! ### Score bounds -/

lemma entryWordList_ne_nil (e : BotSettingKey) : entryWordList e ≠ [] := by
  unfold entryWordList jsSplitWs
  intro h
  exact splitSp_ne_nil _ (List.map_eq_nil_iff.mp h)

lemma overlapScore_bounds (e : BotSettingKey) (iw : List String) :
    0 ≤ overlapScore e iw ∧ overlapScore e iw ≤ 1 := by
  unfold overlapScore
  have hpos : 0 < ((entryWordList e).length : ℚ) := by
    have := List.length_pos.mpr (entryWordList_ne_nil e)
    exact_mod_cast this
  constructor
  · positivity
  · rw [div_le_one hpos]
    exact_mod_cast List.length_filter_le _ _

lemma getD_map_overlap (l : List BotSettingKey) (iw : List String) :
    ∀ n : Nat, 0 ≤ (l.map (fun e => overlapScore e iw)).getD n 0 ∧
      (l.map (fun e => overlapScore e iw)).getD n 0 ≤ 1 := by
  induction l with
  | nil => intro n; simp [List.getD]
  | cons e l ih =>
    intro n
    cases n with
    | zero => simpa [List.getD] using overlapScore_bounds e iw
    | succ m => simpa [List.getD] using ih m

lemma resultHybrid_bounds (iw : List String) (r : FuseResult)
    (hs : ∀ s, r.score = some s → 0 ≤ s ∧ s ≤ 1) :
    0 ≤ resultHybrid iw r ∧ resultHybrid iw r ≤ 11/10 := by
  have h02 : (0.2 : ℚ) = 1/5 := by norm_num
  have hf : 0 ≤ 1 - r.score.getD 1 ∧ 1 - r.score.getD 1 ≤ 1 := by
    cases hsc : r.score with
    | none => simp
    | some s =>
      obtain ⟨h1, h2⟩ := hs s hsc
      simp only [Option.getD]
      constructor <;> linarith
  have ho : 0 ≤ (if settingIdx r.item.key < 0 then (0:ℚ)
        else (botSettingKeys.map (fun e => overlapScore e iw)).getD (settingIdx r.item.key).toNat 0) ∧
      (if settingIdx r.item.key < 0 then (0:ℚ)
        else (botSettingKeys.map (fun e => overlapScore e iw)).getD (settingIdx r.item.key).toNat 0) ≤ 1 := by
    split
    · norm_num
    · exact getD_map_overlap _ _ _
  simp only [resultHybrid, h02]
  split
  · constructor <;> linarith [hf.1, hf.2, ho.1, ho.2]
  · constructor <;> linarith [hf.1, hf.2, ho.1, ho.2]

lemma findSettingKey_eq (search : String → List FuseResult) (t nt : String) :
    findSettingKey search t nt =
      if (fuseLoop (jsSplitWs nt) (search t) (-1) none 0).1 = -1 then
        ⟨none, 0,
         some ((((search t).take 3).map (fun r => r.item.key)).filter (fun k => !k.isEmpty))⟩
      else
        ⟨some (((botSettingKeys[(fuseLoop (jsSplitWs nt) (search t) (-1) none 0).1.toNat]?).map
            (fun e => e.key)).getD ""),
         (fuseLoop (jsSplitWs nt) (search t) (-1) none 0).2, none⟩ := rfl

lemma findSettingKey_conf_bounds (search : String → List FuseResult) (t nt : String)
    (hadm : Admissible search) :
    0 ≤ (findSettingKey search t nt).confidence ∧
      (findSettingKey search t nt).confidence ≤ 11/10 := by
  have hall : ∀ r ∈ search t, 0 ≤ resultHybrid (jsSplitWs nt) r ∧
      resultHybrid (jsSplitWs nt) r ≤ 11/10 :=
    fun r hr => resultHybrid_bounds _ r (fun s hsc => (hadm t r hr).2 s hsc)
  rw [findSettingKey_eq]
  split
  · simp only []
    norm_num
  · simpa using fuseLoop_conf_bounds (jsSplitWs nt) (search t) (-1) none 0 le_rfl
      (by norm_num) hall

/-! ### Shape of the resolver's results -/

lemma smart_intent_none (search : String → List FuseResult) (t : String) (v : Option String)
    (ht : t ≠ "") (hint : detectIntent (normalizeText t) = none) :
    smartBotSettings search t v =
      .ok ⟨false, none, none, none, 0, none, "Unable to determine user intent"⟩ := by
  have hlen := not_length_lt_one ht
  simp only [smartBotSettings]
  rw [if_neg hlen, hint]

lemma smart_of_intent (search : String → List FuseResult) (t : String) (v : Option String)
    (i : IntentType) (ht : t ≠ "") (hint : detectIntent (normalizeText t) = some i) :
    smartBotSettings search t v =
      (if jsFalsyStr (findSettingKey search t (normalizeText t)).key ||
          decide ((findSettingKey search t (normalizeText t)).confidence < 0.5) then
        .ok { success := false, intent := some i, key := none,
              value := if decide (i = IntentType.update) && jsFalsyStr v then
                  extractValue (normalizeText t) else v,
              confidence := (findSettingKey search t (normalizeText t)).confidence,
              possibleMatches :=
                some ((findSettingKey search t (normalizeText t)).possibleMatches.getD []),
              message := "Low confidence in key match" }
      else
        .ok { success := true, intent := some i,
              key := (findSettingKey search t (normalizeText t)).key,
              value := if decide (i = IntentType.update) && jsFalsyStr v then
                  extractValue (normalizeText t) else v,
              confidence := (findSettingKey search t (normalizeText t)).confidence,
              possibleMatches := none,
              message := "Key and value resolved successfully" }) := by
  have hlen := not_length_lt_one ht
  simp only [smartBotSettings]
  rw [if_neg hlen, hint]

/-! ### Claim theorems -/

/-- C3: `smartBotSettings` raises the typed validation failure on empty `text`
and never returns a result then; for every non-empty `text` (with any optional
explicit value) it never raises — unrecognized intent and low key confidence
are reported inside a normally returned result. -/
theorem smart_validation_boundary (search : String → List FuseResult) (v : Option String) :
    smartBotSettings search "" v = .error ⟨"Invalid input parameters"⟩ ∧
    ∀ t : String, t ≠ "" → (smartBotSettings search t v).isOk = true := by
  constructor
  · rfl
  · intro t ht
    cases hint : detectIntent (normalizeText t) with
    | none => rw [smart_intent_none search t v ht hint]; rfl
    | some i =>
      rw [smart_of_intent search t v i ht hint]
      split <;> rfl

/-- Witness for C3 at the concrete text "hi". -/
theorem smart_validation_boundary_witness :
    ("hi" : String) ≠ "" ∧ (smartBotSettings (fun _ => []) "hi" none).isOk = true :=
  ⟨by decide, (smart_validation_boundary (fun _ => []) none).2 "hi" (by decide)⟩

/-- C4: intent classification checks the categories in the fixed order Get,
Update, Delete and returns the first category one of whose phrases occurs as a
substring of the normalized text, `none` when no phrase matches; consequently
a text containing both a Get-category phrase and a Delete-category phrase
always resolves to `get`, independent of phrase positions. -/
theorem detectIntent_category_priority (nt : String) :
    (detectIntent nt = some IntentType.get ↔
      getPhrases.any (fun k => strIncludes nt k) = true) ∧
    (detectIntent nt = some IntentType.update ↔
      (getPhrases.any (fun k => strIncludes nt k) = false ∧
       updatePhrases.any (fun k => strIncludes nt k) = true)) ∧
    (detectIntent nt = some IntentType.delete ↔
      (getPhrases.any (fun k => strIncludes nt k) = false ∧
       updatePhrases.any (fun k => strIncludes nt k) = false ∧
       deletePhrases.any (fun k => strIncludes nt k) = true)) ∧
    (detectIntent nt = none ↔
      (getPhrases.any (fun k => strIncludes nt k) = false ∧
       updatePhrases.any (fun k => strIncludes nt k) = false ∧
       deletePhrases.any (fun k => strIncludes nt k) = false)) ∧
    ((∃ g ∈ getPhrases, strIncludes nt g = true) →
      (∃ d ∈ deletePhrases, strIncludes nt d = true) →
      detectIntent nt = some IntentType.get) := by
  simp only [detectIntent_eq]
  cases hg : getPhrases.any (fun k => strIncludes nt k) <;>
    cases hu : updatePhrases.any (fun k => strIncludes nt k) <;>
      cases hd : deletePhrases.any (fun k => strIncludes nt k) <;>
        simp_all [List.any_eq_true]

/-- Witness for C4 at the concrete text "show me how to delete this". -/
theorem detectIntent_category_priority_witness :
    (∃ g ∈ getPhrases, strIncludes "show me how to delete this" g = true) ∧
    (∃ d ∈ deletePhrases, strIncludes "show me how to delete this" d = true) ∧
    detectIntent "show me how to delete this" = some IntentType.get :=
  ⟨by decide, by decide,
    (detectIntent_category_priority "show me how to delete this").2.2.2.2
      (by decide) (by decide)⟩

/-- C9: any input whose normalized form contains "unset" but no Get-category
trigger phrase resolves to `update`, never `delete` — the Update category is
checked before Delete and its trigger "set" occurs inside "unset". -/
theorem detectIntent_unset_never_delete (t : String)
    (hunset : strIncludes (normalizeText t) "unset" = true)
    (hget : ∀ g ∈ getPhrases, strIncludes (normalizeText t) g = false) :
    detectIntent (normalizeText t) = some IntentType.update := by
  have hset : strIncludes (normalizeText t) "set" = true :=
    strIncludes_trans (a := "set") (b := "unset") (by decide) hunset
  have hg : getPhrases.any (fun k => strIncludes (normalizeText t) k) = false := by
    rw [Bool.eq_false_iff, Ne, List.any_eq_true]
    rintro ⟨g, hgmem, hgtrue⟩
    rw [hget g hgmem] at hgtrue
    simp at hgtrue
  have hu : updatePhrases.any (fun k => strIncludes (normalizeText t) k) = true := by
    rw [List.any_eq_true]
    exact ⟨"set", by decide, hset⟩
  rw [detectIntent_eq]
  simp [hg, hu]

/-- Witness for C9 at the concrete text "please unset it". -/
theorem detectIntent_unset_never_delete_witness :
    strIncludes (normalizeText "please unset it") "unset" = true ∧
    (∀ g ∈ getPhrases, strIncludes (normalizeText "please unset it") g = false) ∧
    detectIntent (normalizeText "please unset it") = some IntentType.update :=
  ⟨by decide, by decide,
    detectIntent_unset_never_delete "please unset it" (by decide) (by decide)⟩

/-- C8: the resolver is deterministic — two successive calls with identical
`text` and `value` arguments produce identical results, each equal to the one
pure computation; there is no hidden state for one call to leave behind for
the next. -/
theorem resolveTwice_deterministic (search : String → List FuseResult)
    (t : String) (v : Option String) :
    (resolveTwice search t v).1 = (resolveTwice search t v).2 ∧
    (resolveTwice search t v).1 = smartBotSettings search t v :=
  ⟨rfl, rfl⟩

/-- C10: an explicit value equal to the empty string does not override
extraction — with update intent the resolver behaves exactly as if no value
had been supplied, and the returned value is the one `extractValue` produces
on the normalized text (possibly none), never the empty string itself. -/
theorem smart_empty_value_ignored (search : String → List FuseResult) (t : String)
    (ht : t ≠ "") (hint : detectIntent (normalizeText t) = some IntentType.update) :
    smartBotSettings search t (some "") = smartBotSettings search t none ∧
    (smartBotSettings search t (some "")).toOption.map (fun r => r.value) =
      some (extractValue (normalizeText t)) := by
  constructor
  · rw [smart_of_intent search t (some "") IntentType.update ht hint,
      smart_of_intent search t none IntentType.update ht hint]
    rfl
  · rw [smart_of_intent search t (some "") IntentType.update ht hint]
    split <;> rfl

/-- Witness for C10 at the concrete text "set sound to on". -/
theorem smart_empty_value_ignored_witness :
    ("set sound to on" : String) ≠ "" ∧
    detectIntent (normalizeText "set sound to on") = some IntentType.update ∧
    smartBotSettings (fun _ => []) "set sound to on" (some "") =
      smartBotSettings (fun _ => []) "set sound to on" none :=
  ⟨by decide, by decide,
    (smart_empty_value_ignored (fun _ => []) "set sound to on" (by decide) (by decide)).1⟩

lemma primarySearch_admissible : Admissible primarySearch := by
  intro t r hr
  unfold primarySearch at hr
  by_cases h : t = "set main color to X"
  · simp only [if_pos h, List.mem_singleton] at hr
    subst hr
    refine ⟨by decide, ?_⟩
    intro s hs
    obtain rfl : (0 : ℚ) = s := Option.some.inj hs
    norm_num
  · simp [h] at hr

lemma stripeSearch_admissible : Admissible stripeSearch := by
  intro t r hr
  unfold stripeSearch at hr
  by_cases h : t = "set xyz please"
  · simp only [if_pos h, List.mem_singleton] at hr
    subst hr
    refine ⟨by decide, ?_⟩
    intro s hs
    obtain rfl : ((9 : ℚ)/10) = s := Option.some.inj hs
    norm_num
  · simp [h] at hr

lemma boostSearch_admissible : Admissible boostSearch := by
  intro t r hr
  unfold boostSearch at hr
  by_cases h : t = "get access token for api authentication"
  · simp only [if_pos h, List.mem_singleton] at hr
    subst hr
    refine ⟨by decide, ?_⟩
    intro s hs
    obtain rfl : (0 : ℚ) = s := Option.some.inj hs
    norm_num
  · simp [h] at hr

lemma smart_intent_value (search : String → List FuseResult) (t : String)
    (v : Option String) (i : IntentType) (ht : t ≠ "")
    (hint : detectIntent (normalizeText t) = some i) :
    (smartBotSettings search t v).toOption.map (fun r => (r.intent, r.value)) =
      some (some i, if decide (i = IntentType.update) && jsFalsyStr v then
        extractValue (normalizeText t) else v) := by
  rw [smart_of_intent search t v i ht hint]
  split <;> rfl

/-- C2 counterexample: with an admissible search that ranks the primary-color
entry perfectly for the text "set main color to X" (a text built from that
entry's own keyword "main color"), resolution succeeds with that key but the
returned value is "x", not the claimed verbatim "X" — extraction operates on
the lowercased normalized text. -/
theorem smart_keyword_roundtrip_counterexample :
    primaryEntry ∈ botSettingKeys ∧ "main color" ∈ primaryEntry.keywords ∧
    Admissible primarySearch ∧
    (smartBotSettings primarySearch ("set " ++ "main color" ++ " to X") none).toOption.map
        (fun r => (r.success, r.intent, r.key, r.value)) =
      some (true, some IntentType.update, some "website-chatbot-primary-color", some "x") ∧
    (some "x" : Option String) ≠ some "X" :=
  ⟨by decide, by decide, primarySearch_admissible, by with_unfolding_all rfl, by decide⟩

/-- C2 (amended): for every catalog entry `e` and keyword `k` of `e`, and any
outcome of the external similarity search, resolving "set " ++ k ++ " to X"
with no explicit value yields intent `update` and value "x" — the lowercased
capture, since extraction runs on the normalized text; `success = true` with
`key = e.key` additionally requires the external matcher to rank `e` best
with hybrid score at least 0.5, which the engine cannot guarantee for every
keyword (several keywords are shared between entries). -/
theorem smart_keyword_roundtrip_amended (search : String → List FuseResult)
    (e : BotSettingKey) (he : e ∈ botSettingKeys) (k : String) (hk : k ∈ e.keywords) :
    (smartBotSettings search ("set " ++ k ++ " to X") none).toOption.map
        (fun r => (r.intent, r.value)) =
      some (some IntentType.update, some "x") := by
  have hall : ∀ e2 ∈ botSettingKeys, ∀ k2 ∈ e2.keywords,
      detectIntent (normalizeText ("set " ++ k2 ++ " to X")) = some IntentType.update ∧
      extractValue (normalizeText ("set " ++ k2 ++ " to X")) = some "x" := by decide
  obtain ⟨hint, hext⟩ := hall e he k hk
  have ht : ("set " ++ k ++ " to X") ≠ "" :=
    append_ne_empty_right _ _ (by decide)
  rw [smart_intent_value search _ none IntentType.update ht hint]
  simp [jsFalsyStr, hext]

/-- Witness for C2 (amended) at the first catalog entry and its keyword
"main color". -/
theorem smart_keyword_roundtrip_amended_witness :
    primaryEntry ∈ botSettingKeys ∧ "main color" ∈ primaryEntry.keywords ∧
    (smartBotSettings (fun _ => []) ("set " ++ "main color" ++ " to X") none).toOption.map
        (fun r => (r.intent, r.value)) = some (some IntentType.update, some "x") :=
  ⟨by decide, by decide,
    smart_keyword_roundtrip_amended (fun _ => []) primaryEntry (by decide)
      "main color" (by decide)⟩

/-- C5 counterexample: the spec's round-trip example fails on the code — on
the raw text the first pattern never matches (the capture class excludes `#`)
and extraction returns none, while in the pipeline (extraction after
normalization) the `#` has been stripped, so the extracted value is "112233";
neither equals "#112233". -/
theorem extractValue_hex_counterexample :
    extractValue "change the color to #112233" = none ∧
    extractValue (normalizeText "change the color to #112233") = some "112233" ∧
    (none : Option String) ≠ some "#112233" ∧
    (some "112233" : Option String) ≠ some "#112233" :=
  ⟨rfl, rfl, by decide, by decide⟩

/-- C5 (amended): extraction tries the three patterns " to ", "= ", " as " in
that order, returns the first non-empty trimmed capture, and returns none
when no pattern matches (no last-token fallback); on the spec's examples it
yields "112233" — the `#` is stripped by normalization before extraction —
and "dark mode". -/
theorem extractValue_spec_amended :
    extractValue (normalizeText "change the color to #112233") = some "112233" ∧
    extractValue (normalizeText "set it as dark mode") = some "dark mode" ∧
    (∀ nt : String, ∀ cap : List Char,
      regexCapture " to ".data nt.data = some cap →
      extractValue nt = some (String.mk (trimWs cap))) ∧
    (∀ nt : String, extractValue nt = none ↔
      (regexCapture " to ".data nt.data = none ∧
       regexCapture "= ".data nt.data = none ∧
       regexCapture " as ".data nt.data = none)) := by
  refine ⟨rfl, rfl, ?_, ?_⟩
  · intro nt cap h
    simp [extractValue, List.findSome?, h]
  · intro nt
    unfold extractValue
    cases h1 : regexCapture " to ".data nt.data <;>
      cases h2 : regexCapture "= ".data nt.data <;>
        cases h3 : regexCapture " as ".data nt.data <;>
          simp [List.findSome?, h1, h2, h3]

/-- Witness for C5 (amended) at the concrete text "a to b". -/
theorem extractValue_spec_amended_witness :
    regexCapture " to ".data "a to b".data = some ['b'] ∧
    extractValue "a to b" = some (String.mk (trimWs ['b'])) :=
  ⟨rfl, extractValue_spec_amended.2.2.1 "a to b" ['b'] rfl⟩

/-- C6 counterexample: an admissible search with a perfect (score 0) hit for
the access-token entry on a fully overlapping input that also triggers the
partial-match boost yields hybrid score and returned confidence 11/10 > 1. -/
theorem smart_confidence_exceeds_one :
    Admissible boostSearch ∧
    (smartBotSettings boostSearch "get access token for api authentication" none).toOption.map
        (fun r => r.confidence) = some (11/10) ∧
    ¬ ((11 : ℚ)/10 ≤ 1) :=
  ⟨boostSearch_admissible, by with_unfolding_all rfl, by norm_num⟩

/-- C6 (amended): for every admissible search, every hybrid score and the
confidence of every returned result lie in [0, 11/10] — not [0, 1]: the flat
0.2 partial-match boost is added inside the average without re-clamping, so a
perfect similarity score with full overlap and the boost reaches 1.1. -/
theorem smart_confidence_bounds (search : String → List FuseResult)
    (hadm : Admissible search) (t : String) (v : Option String) (r : SmartResult)
    (hok : smartBotSettings search t v = .ok r) :
    (0 ≤ r.confidence ∧ r.confidence ≤ 11/10) ∧
    ∀ hit ∈ search t, 0 ≤ resultHybrid (jsSplitWs (normalizeText t)) hit ∧
      resultHybrid (jsSplitWs (normalizeText t)) hit ≤ 11/10 := by
  constructor
  · by_cases ht : t = ""
    · subst ht
      simp [smartBotSettings] at hok
    · cases hint : detectIntent (normalizeText t) with
      | none =>
        rw [smart_intent_none search t v ht hint] at hok
        obtain rfl := Except.ok.inj hok
        norm_num
      | some i =>
        rw [smart_of_intent search t v i ht hint] at hok
        have hb := findSettingKey_conf_bounds search t (normalizeText t) hadm
        split at hok <;> (obtain rfl := Except.ok.inj hok; exact hb)
  · intro hit hhit
    exact resultHybrid_bounds _ hit (fun s hs => (hadm t hit hhit).2 s hs)

/-- Witness for C6 (amended) on a concrete admissible search. -/
theorem smart_confidence_bounds_witness :
    Admissible boostSearch ∧ 0 ≤ ((11:ℚ)/10) ∧ ((11:ℚ)/10) ≤ 11/10 :=
  ⟨boostSearch_admissible,
    (smart_confidence_bounds boostSearch boostSearch_admissible
      "get access token for api authentication" none
      ⟨true, some IntentType.get, some "access_token", none, 11/10, none,
        "Key and value resolved successfully"⟩ (by with_unfolding_all rfl)).1⟩

/-- C1 counterexample: with an admissible search returning exactly one (weak)
hit, resolution fails with low confidence, but `possibleMatches` is the empty
list — not the non-empty top-3-by-similarity-score list the claim requires
for a failure with at least one hit. -/
theorem smart_low_confidence_counterexample :
    Admissible stripeSearch ∧ (stripeSearch "set xyz please").length = 1 ∧
    smartBotSettings stripeSearch "set xyz please" none =
      .ok ⟨false, some IntentType.update, none, none, 1/20, some [],
        "Low confidence in key match"⟩ :=
  ⟨stripeSearch_admissible, rfl, by with_unfolding_all rfl⟩

/-- C1 (amended): whenever key resolution fails because the similarity search
returned no hit or the best hybrid score is below 0.5, the resolver returns a
normal result with success false, the detected intent, no key, the extracted
value, the outcome's confidence (the best hybrid score over the hits, or 0
when there was no hit) and the message "Low confidence in key match" — but
`possibleMatches` is always the empty list, even when the search returned
hits: the code only populates it when every hit fails catalog lookup, which
admissible searches never produce. -/
theorem smart_low_confidence_amended (search : String → List FuseResult)
    (hadm : Admissible search) (t : String) (ht : t ≠ "") (v : Option String)
    (i : IntentType) (hint : detectIntent (normalizeText t) = some i)
    (hlow : search t = [] ∨
      (findSettingKey search t (normalizeText t)).confidence < 1/2) :
    smartBotSettings search t v =
      .ok { success := false, intent := some i, key := none,
            value := if decide (i = IntentType.update) && jsFalsyStr v then
                extractValue (normalizeText t) else v,
            confidence := (findSettingKey search t (normalizeText t)).confidence,
            possibleMatches := some [], message := "Low confidence in key match" } ∧
    (search t ≠ [] →
      (∃ hit ∈ search t, (findSettingKey search t (normalizeText t)).confidence =
          resultHybrid (jsSplitWs (normalizeText t)) hit) ∧
      ∀ hit ∈ search t, resultHybrid (jsSplitWs (normalizeText t)) hit ≤
        (findSettingKey search t (normalizeText t)).confidence) := by
  have hmem : ∀ r ∈ search t, r.item ∈ botSettingKeys := fun r hr => (hadm t r hr).1
  have houtcome : (findSettingKey search t (normalizeText t)).possibleMatches.getD [] = [] := by
    cases hs : search t with
    | nil =>
      rw [findSettingKey_empty search t _ hs]
      rfl
    | cons r rest =>
      rw [findSettingKey_pos search t _ (by rw [hs]; simp) hmem]
      rfl
  have hcond : (jsFalsyStr (findSettingKey search t (normalizeText t)).key ||
      decide ((findSettingKey search t (normalizeText t)).confidence < 0.5)) = true := by
    rcases hlow with hnil | hlt
    · rw [findSettingKey_empty search t _ hnil]
      rfl
    · have h05 : (0.5 : ℚ) = 1/2 := by norm_num
      rw [Bool.or_eq_true, decide_eq_true_eq, h05]
      exact Or.inr hlt
  constructor
  · rw [smart_of_intent search t v i ht hint, if_pos hcond, houtcome]
  · intro hne
    have hconf : (findSettingKey search t (normalizeText t)).confidence =
        (fuseLoop (jsSplitWs (normalizeText t)) (search t) (-1) none 0).2 := by
      rw [findSettingKey_pos search t _ hne hmem]
    rw [hconf]
    cases hs : search t with
    | nil => exact absurd hs hne
    | cons r rest =>
      rw [fuseLoop_cons_none]
      obtain ⟨hm, hle, hub⟩ := fuseLoop_conf_mem_ub (jsSplitWs (normalizeText t)) rest
        (settingIdx r.item.key) (resultHybrid (jsSplitWs (normalizeText t)) r)
      constructor
      · rcases hm with h1 | ⟨r2, hr2, he⟩
        · exact ⟨r, by simp, h1⟩
        · exact ⟨r2, by simp [hr2], he⟩
      · intro hit hhit
        rcases List.mem_cons.mp hhit with h2 | h2
        · subst h2; exact hle
        · exact hub hit h2

/-- Witness for C1 (amended) on a concrete admissible search with one weak
hit. -/
theorem smart_low_confidence_amended_witness :
    Admissible stripeSearch ∧
    smartBotSettings stripeSearch "set xyz please" none =
      .ok { success := false, intent := some IntentType.update, key := none,
            value := if decide (IntentType.update = IntentType.update) && jsFalsyStr none then
                extractValue (normalizeText "set xyz please") else none,
            confidence := (findSettingKey stripeSearch "set xyz please"
              (normalizeText "set xyz please")).confidence,
            possibleMatches := some [], message := "Low confidence in key match" } :=
  ⟨stripeSearch_admissible,
    (smart_low_confidence_amended stripeSearch stripeSearch_admissible "set xyz please"
      (by decide) none IntentType.update (by decide)
      (Or.inr (by with_unfolding_all decide))).1⟩

/-! ### Word tokens: invariance under normalization -/

lemma wordTokensGo_ws (c : Char) (cs acc : List Char) (h : isWsChar c = true) :
    wordTokensGo (c :: cs) acc =
      if acc.isEmpty then wordTokensGo cs [] else acc.reverse :: wordTokensGo cs [] := by
  simp [wordTokensGo, h]

lemma wordTokensGo_not_ws (c : Char) (cs acc : List Char) (h : isWsChar c = false) :
    wordTokensGo (c :: cs) acc = wordTokensGo cs (c :: acc) := by
  simp [wordTokensGo, h]

lemma wordTokensGo_append (l m : List Char) :
    ∀ acc, wordTokensGo (l ++ ' ' :: m) acc = wordTokensGo l acc ++ wordTokensGo m [] := by
  induction l with
  | nil =>
    intro acc
    rw [List.nil_append, wordTokensGo_ws _ _ _ (by decide)]
    by_cases h : acc.isEmpty <;> simp [wordTokensGo, h]
  | cons c cs ih =>
    intro acc
    by_cases h : isWsChar c = true
    · rw [List.cons_append, wordTokensGo_ws _ _ _ h, wordTokensGo_ws _ _ _ h]
      by_cases ha : acc.isEmpty <;> simp [ha, ih]
    · rw [List.cons_append, wordTokensGo_not_ws _ _ _ (by simpa using h),
        wordTokensGo_not_ws _ _ _ (by simpa using h), ih]

lemma wordTokensGo_collapse : ∀ (l : List Char) (acc : List Char),
    wordTokensGo (collapseWs l) acc = wordTokensGo l acc
  | [], _ => rfl
  | [c], acc => by
    by_cases h : isWsChar c = true
    · rw [show collapseWs [c] = [' '] by simp [collapseWs, h],
        wordTokensGo_ws _ _ _ (by decide), wordTokensGo_ws _ _ _ h]
    · rw [show collapseWs [c] = [c] by simp [collapseWs, h]]
  | c :: d :: cs, acc => by
    by_cases hg : (isWsChar c && isWsChar d) = true
    · obtain ⟨hc, hd⟩ := Bool.and_eq_true_iff.mp hg
      rw [show collapseWs (c :: d :: cs) = collapseWs (d :: cs) by simp [collapseWs, hg],
        wordTokensGo_collapse (d :: cs) acc,
        wordTokensGo_ws _ _ _ hc, wordTokensGo_ws _ _ _ hd,
        wordTokensGo_ws _ _ _ hd]
      by_cases ha : acc.isEmpty <;> simp [ha]
    · rw [show collapseWs (c :: d :: cs) =
          (if isWsChar c then ' ' else c) :: collapseWs (d :: cs) by
        simp [collapseWs, hg]]
      by_cases hc : isWsChar c = true
      · rw [if_pos hc, wordTokensGo_ws _ _ _ (by decide), wordTokensGo_ws _ _ _ hc]
        by_cases ha : acc.isEmpty <;>
          simp [ha, wordTokensGo_collapse (d :: cs) []]
      · rw [if_neg hc, wordTokensGo_not_ws _ _ _ (by simpa using hc),
          wordTokensGo_not_ws _ _ _ (by simpa using hc),
          wordTokensGo_collapse (d :: cs) (c :: acc)]

lemma wordTokensGo_dropWhile (l : List Char) :
    wordTokensGo (l.dropWhile isWsChar) [] = wordTokensGo l [] := by
  induction l with
  | nil => rfl
  | cons c cs ih =>
    by_cases h : isWsChar c = true
    · rw [List.dropWhile_cons, if_pos h, ih, wordTokensGo_ws _ _ _ h]
      simp
    · rw [List.dropWhile_cons, if_neg (by simpa using h)]

lemma wordTokensGo_dropTrailing : ∀ (l : List Char) (acc : List Char),
    wordTokensGo (dropTrailingWs l) acc = wordTokensGo l acc
  | [], _ => rfl
  | c :: cs, acc => by
    have ih := wordTokensGo_dropTrailing cs
    rw [dropTrailingWs]
    cases hd : dropTrailingWs cs with
    | nil =>
      have hcs : ∀ a, wordTokensGo cs a = wordTokensGo ([] : List Char) a := by
        intro a
        rw [← ih a, hd]
      by_cases hw : isWsChar c = true
      · rw [if_pos hw, wordTokensGo_ws _ _ _ hw, hcs]
        by_cases ha : acc.isEmpty <;> simp [ha, wordTokensGo]
      · rw [if_neg hw, wordTokensGo_not_ws _ _ _ (by simpa using hw),
          wordTokensGo_not_ws _ _ _ (by simpa using hw), hcs]
    | cons r rs =>
      have hcs : ∀ a, wordTokensGo (r :: rs) a = wordTokensGo cs a := by
        intro a
        rw [← ih a, hd]
      by_cases hw : isWsChar c = true
      · rw [wordTokensGo_ws c (r :: rs) acc hw, wordTokensGo_ws c cs acc hw, hcs]
      · rw [wordTokensGo_not_ws c (r :: rs) acc (by simpa using hw),
          wordTokensGo_not_ws c cs acc (by simpa using hw), hcs]

/-! ### Canonical form of normalized text -/

lemma allSp_tail {c : Char} {l : List Char} (h : AllSpWs (c :: l)) : AllSpWs l :=
  fun x hx hw => h x (by simp [hx]) hw

lemma noWsPair_tail {c : Char} {l : List Char} (h : NoWsPair (c :: l)) : NoWsPair l := by
  cases l with
  | nil => trivial
  | cons d ds => exact h.2

lemma lastNotWs_tail {c : Char} {l : List Char} (hne : l ≠ []) (h : LastNotWs (c :: l)) :
    LastNotWs l := by
  cases l with
  | nil => exact absurd rfl hne
  | cons d ds => exact h

lemma collapse_cons_not_ws {d : Char} (cs : List Char) (hd : isWsChar d = false) :
    ∃ rest, collapseWs (d :: cs) = d :: rest := by
  cases cs with
  | nil => exact ⟨[], by simp [collapseWs, hd]⟩
  | cons e es => exact ⟨collapseWs (e :: es), by simp [collapseWs, hd]⟩

lemma allSp_collapse : ∀ l, AllSpWs (collapseWs l)
  | [] => by intro x hx _; simp [collapseWs] at hx
  | [c] => by
    intro x hx hw
    by_cases h : isWsChar c = true
    · simp [collapseWs, h] at hx
      exact hx
    · simp [collapseWs, h] at hx
      subst hx
      exact absurd hw h
  | c :: d :: cs => by
    intro x hx hw
    by_cases hg : (isWsChar c && isWsChar d) = true
    · rw [show collapseWs (c :: d :: cs) = collapseWs (d :: cs) by simp [collapseWs, hg]] at hx
      exact allSp_collapse (d :: cs) x hx hw
    · rw [show collapseWs (c :: d :: cs) =
          (if isWsChar c then ' ' else c) :: collapseWs (d :: cs) by simp [collapseWs, hg]] at hx
      rcases List.mem_cons.mp hx with h1 | h1
      · subst h1
        by_cases hc : isWsChar c = true
        · simp [hc]
        · rw [if_neg hc] at hw
          exact absurd hw (by simpa using hc)
      · exact allSp_collapse (d :: cs) x h1 hw

lemma noWsPair_collapse : ∀ l, NoWsPair (collapseWs l)
  | [] => trivial
  | [c] => by
    by_cases h : isWsChar c = true
    · rw [show collapseWs [c] = [' '] by simp [collapseWs, h]]
      trivial
    · rw [show collapseWs [c] = [c] by simp [collapseWs, h]]
      trivial
  | c :: d :: cs => by
    by_cases hg : (isWsChar c && isWsChar d) = true
    · rw [show collapseWs (c :: d :: cs) = collapseWs (d :: cs) by simp [collapseWs, hg]]
      exact noWsPair_collapse (d :: cs)
    · have hrest := noWsPair_collapse (d :: cs)
      rw [show collapseWs (c :: d :: cs) =
          (if isWsChar c then ' ' else c) :: collapseWs (d :: cs) by simp [collapseWs, hg]]
      by_cases hc : isWsChar c = true
      · have hd : isWsChar d = false := by
          cases hdd : isWsChar d
          · rfl
          · rw [hc, hdd] at hg
            simp at hg
        obtain ⟨rest, hre⟩ := collapse_cons_not_ws cs hd
        rw [hre, if_pos hc]
        refine ⟨?_, ?_⟩
        · rintro ⟨_, hwd⟩
          rw [hd] at hwd
          exact absurd hwd (by simp)
        · rw [← hre]
          exact hrest
      · rw [if_neg hc]
        cases hX : collapseWs (d :: cs) with
        | nil => trivial
        | cons y ys =>
          refine ⟨?_, ?_⟩
          · rintro ⟨hwc, _⟩
            exact hc hwc
          · rw [← hX]
            exact hrest

lemma allSp_dropWhile (l : List Char) (h : AllSpWs l) : AllSpWs (l.dropWhile isWsChar) := by
  induction l with
  | nil => exact h
  | cons c cs ih =>
    rw [List.dropWhile_cons]
    split
    · exact ih (allSp_tail h)
    · exact h

lemma noWsPair_dropWhile (l : List Char) (h : NoWsPair l) : NoWsPair (l.dropWhile isWsChar) := by
  induction l with
  | nil => exact h
  | cons c cs ih =>
    rw [List.dropWhile_cons]
    split
    · exact ih (noWsPair_tail h)
    · exact h

lemma headNotWs_dropWhile (l : List Char) : HeadNotWs (l.dropWhile isWsChar) := by
  induction l with
  | nil => trivial
  | cons c cs ih =>
    rw [List.dropWhile_cons]
    split
    · exact ih
    · next hc => simpa [HeadNotWs] using hc

lemma mem_dropTrailingWs : ∀ {x : Char} {l : List Char}, x ∈ dropTrailingWs l → x ∈ l := by
  intro x l
  induction l with
  | nil => exact fun h => h
  | cons c cs ih =>
    intro h
    rw [dropTrailingWs] at h
    cases hd : dropTrailingWs cs with
    | nil =>
      rw [hd] at h
      by_cases hw : isWsChar c = true
      · rw [if_pos hw] at h
        simp at h
      · rw [if_neg hw] at h
        simp only [List.mem_singleton] at h
        simp [h]
    | cons r rs =>
      rw [hd] at h
      rcases List.mem_cons.mp h with h1 | h1
      · simp [h1]
      · have : x ∈ dropTrailingWs cs := by rw [hd]; exact h1
        simp [ih this]

lemma allSp_dropTrailing (l : List Char) (h : AllSpWs l) : AllSpWs (dropTrailingWs l) :=
  fun c hc hw => h c (mem_dropTrailingWs hc) hw

lemma dropTrailing_head (cs : List Char) (h : dropTrailingWs cs ≠ []) :
    (dropTrailingWs cs).head? = cs.head? := by
  cases cs with
  | nil => simp [dropTrailingWs] at h
  | cons d ds =>
    rw [dropTrailingWs]
    cases hd : dropTrailingWs ds with
    | nil =>
      by_cases hw : isWsChar d = true
      · rw [dropTrailingWs, hd] at h
        simp [hw] at h
      · simp [hw]
    | cons r rs => simp

lemma noWsPair_dropTrailing : ∀ l, NoWsPair l → NoWsPair (dropTrailingWs l)
  | [], _ => trivial
  | c :: cs, h => by
    rw [dropTrailingWs]
    cases hd : dropTrailingWs cs with
    | nil =>
      by_cases hw : isWsChar c = true
      · rw [if_pos hw]; trivial
      · rw [if_neg hw]; trivial
    | cons r rs =>
      refine ⟨?_, ?_⟩
      · have hh := dropTrailing_head cs (by rw [hd]; simp)
        rw [hd] at hh
        cases cs with
        | nil => simp [dropTrailingWs] at hd
        | cons d ds =>
          have hrd : r = d := by simpa using hh
          subst hrd
          exact h.1
      · rw [← hd]
        exact noWsPair_dropTrailing cs (noWsPair_tail h)

lemma lastNotWs_dropTrailing : ∀ l, LastNotWs (dropTrailingWs l)
  | [] => trivial
  | c :: cs => by
    rw [dropTrailingWs]
    cases hd : dropTrailingWs cs with
    | nil =>
      by_cases hw : isWsChar c = true
      · rw [if_pos hw]; trivial
      · rw [if_neg hw]
        simpa [LastNotWs] using hw
    | cons r rs =>
      show LastNotWs (r :: rs)
      rw [← hd]
      exact lastNotWs_dropTrailing cs

lemma headNotWs_dropTrailing (l : List Char) (h : HeadNotWs l) :
    HeadNotWs (dropTrailingWs l) := by
  cases l with
  | nil => trivial
  | cons c cs =>
    rw [dropTrailingWs]
    cases hd : dropTrailingWs cs with
    | nil =>
      by_cases hw : isWsChar c = true
      · rw [if_pos hw]; trivial
      · rw [if_neg hw]; exact h
    | cons r rs => exact h

lemma collapse_canonical : ∀ l, AllSpWs l → NoWsPair l → collapseWs l = l
  | [], _, _ => rfl
  | [c], hA, _ => by
    by_cases hw : isWsChar c = true
    · have hc := hA c (by simp) hw
      simp [collapseWs, hw, hc]
    · simp [collapseWs, hw]
  | c :: d :: cs, hA, hP => by
    have hguard : (isWsChar c && isWsChar d) = false := by
      cases hc : isWsChar c
      · simp
      · cases hdd : isWsChar d
        · simp
        · exact absurd ⟨hc, hdd⟩ hP.1
    rw [show collapseWs (c :: d :: cs) =
        (if isWsChar c then ' ' else c) :: collapseWs (d :: cs) by simp [collapseWs, hguard]]
    rw [collapse_canonical (d :: cs) (allSp_tail hA) (noWsPair_tail hP)]
    congr 1
    by_cases hw : isWsChar c = true
    · rw [if_pos hw, hA c (by simp) hw]
    · rw [if_neg hw]

lemma consHead_of_ne {s : List (List Char)} (h : s ≠ []) : consHead [] s = s := by
  cases s with
  | nil => exact absurd rfl h
  | cons w ws => simp [consHead]

lemma wordTokensGo_splitSp : ∀ (xs : List Char), AllSpWs xs → NoWsPair xs → LastNotWs xs →
    ∀ acc : List Char, (acc ≠ [] ∨ (HeadNotWs xs ∧ xs ≠ [])) →
    wordTokensGo xs acc = consHead acc.reverse (splitSp xs)
  | [], _, _, _, acc, hacc => by
    have hane : acc ≠ [] := by
      rcases hacc with h | ⟨_, h⟩
      · exact h
      · exact absurd rfl h
    have hae : acc.isEmpty = false := by simpa [List.isEmpty_iff] using hane
    simp [wordTokensGo, hae, splitSp, consHead]
  | x :: xs, hAll, hPair, hLast, acc, hacc => by
    by_cases hx : isWsChar x = true
    · have hxsp : x = ' ' := hAll x (by simp) hx
      have hane : acc ≠ [] := by
        rcases hacc with h | ⟨hh, _⟩
        · exact h
        · exact absurd hx (by simpa [HeadNotWs] using hh)
      have hxs_ne : xs ≠ [] := by
        intro he
        subst he
        exact absurd hx (by simpa [LastNotWs] using hLast)
      have hxs_head : HeadNotWs xs := by
        cases xs with
        | nil => trivial
        | cons y ys =>
          cases hy : isWsChar y
          · exact hy
          · exact absurd ⟨hx, hy⟩ hPair.1
      have hrec := wordTokensGo_splitSp xs (allSp_tail hAll) (noWsPair_tail hPair)
        (lastNotWs_tail hxs_ne hLast) [] (Or.inr ⟨hxs_head, hxs_ne⟩)
      have hae : acc.isEmpty = false := by simpa [List.isEmpty_iff] using hane
      rw [wordTokensGo_ws _ _ _ hx, if_neg (by simp [hae]), hrec]
      subst hxsp
      rw [show splitSp (' ' :: xs) = [] :: splitSp xs from by simp [splitSp]]
      rw [List.reverse_nil, consHead_of_ne (splitSp_ne_nil xs)]
      simp [consHead]
    · have hxb : isWsChar x = false := by simpa using hx
      have hxsp : (x == ' ') = false := by
        cases hxe : (x == ' ')
        · rfl
        · have hxx : x = ' ' := by simpa using hxe
          subst hxx
          simp [isWsChar] at hxb
      cases xs with
      | nil =>
        rw [wordTokensGo_not_ws _ _ _ hxb,
          show wordTokensGo ([] : List Char) (x :: acc) = [(x :: acc).reverse] from by
            simp [wordTokensGo],
          show splitSp [x] = [[x]] from by simp [splitSp, hxsp]]
        simp [consHead, List.reverse_cons]
      | cons y ys =>
        rw [wordTokensGo_not_ws _ _ _ hxb]
        have hrec := wordTokensGo_splitSp (y :: ys) (allSp_tail hAll) (noWsPair_tail hPair)
          (lastNotWs_tail (by simp) hLast) (x :: acc) (Or.inl (by simp))
        rw [hrec]
        obtain ⟨w, ws, hsp⟩ : ∃ w ws, splitSp (y :: ys) = w :: ws := by
          cases hsp : splitSp (y :: ys) with
          | nil => exact absurd hsp (splitSp_ne_nil _)
          | cons w ws => exact ⟨w, ws, rfl⟩
        rw [hsp, show splitSp (x :: y :: ys) = (x :: w) :: ws from by
          rw [show splitSp (x :: y :: ys) =
              (if x == ' ' then [] :: splitSp (y :: ys)
               else match splitSp (y :: ys) with
                 | [] => [[x]]
                 | w2 :: ws2 => (x :: w2) :: ws2) from rfl, hsp, hxsp]
          simp]
        simp [consHead, List.reverse_cons, List.append_assoc]

/-! ### Input words of normalized text, and monotonicity of the hybrid score -/

lemma wordTokens_trim_collapse (l : List Char) :
    wordTokens (trimWs (collapseWs l)) = wordTokens l := by
  unfold wordTokens trimWs
  rw [wordTokensGo_dropTrailing, wordTokensGo_dropWhile, wordTokensGo_collapse]

lemma wordTokens_normalize (t : String) :
    wordTokens (normalizeText t).data = wordTokens (preClean t) :=
  wordTokens_trim_collapse (preClean t)

lemma norm_canonical (t : String) :
    AllSpWs (normalizeText t).data ∧ NoWsPair (normalizeText t).data ∧
    HeadNotWs (normalizeText t).data ∧ LastNotWs (normalizeText t).data :=
  ⟨allSp_dropTrailing _ (allSp_dropWhile _ (allSp_collapse _)),
   noWsPair_dropTrailing _ (noWsPair_dropWhile _ (noWsPair_collapse _)),
   headNotWs_dropTrailing _ (headNotWs_dropWhile _),
   lastNotWs_dropTrailing _⟩

lemma splitSp_norm (t : String) (h : (normalizeText t).data ≠ []) :
    splitSp (normalizeText t).data = wordTokens (preClean t) := by
  obtain ⟨hA, hP, hH, hL⟩ := norm_canonical t
  have hgo := wordTokensGo_splitSp (normalizeText t).data hA hP hL [] (Or.inr ⟨hH, h⟩)
  rw [List.reverse_nil, consHead_of_ne (splitSp_ne_nil _)] at hgo
  rw [← hgo]
  exact wordTokens_normalize t

lemma jsSplit_norm (t : String) (h : (normalizeText t).data ≠ []) :
    jsSplitWs (normalizeText t) = (wordTokens (preClean t)).map String.mk := by
  unfold jsSplitWs
  obtain ⟨hA, hP, _, _⟩ := norm_canonical t
  rw [collapse_canonical _ hA hP, splitSp_norm t h]

lemma norm_data_nil_tokens (t : String) (h : (normalizeText t).data = []) :
    wordTokens (preClean t) = [] := by
  rw [← wordTokens_normalize, h]
  rfl

lemma tokens_ne_norm (t : String) (h : wordTokens (preClean t) ≠ []) :
    (normalizeText t).data ≠ [] :=
  fun hc => h (norm_data_nil_tokens t hc)

lemma norm_ne_tokens (t : String) (h : (normalizeText t).data ≠ []) :
    wordTokens (preClean t) ≠ [] := by
  intro htk
  have hj := jsSplit_norm t h
  rw [htk] at hj
  have hne : jsSplitWs (normalizeText t) ≠ [] := by
    unfold jsSplitWs
    intro hm
    exact splitSp_ne_nil _ (List.map_eq_nil_iff.mp hm)
  exact hne (by simpa using hj)

lemma data_append (a b : String) : (a ++ b).data = a.data ++ b.data := by
  cases a
  cases b
  rfl

lemma preClean_append (a b : String) : preClean (a ++ b) = preClean a ++ preClean b := by
  unfold preClean
  rw [data_append]
  simp [List.map_append, List.filter_append]

lemma preClean_space : preClean " " = [' '] := by decide

lemma data_ne_of_ne_empty {s : String} (h : s ≠ "") : s.data ≠ [] := by
  intro hd
  apply h
  cases s with
  | mk d =>
    have hd2 : d = [] := hd
    subst hd2
    rfl

lemma words_append_step (t k : String) (h : (normalizeText t).data ≠ []) :
    (∀ w ∈ jsSplitWs (normalizeText t), w ∈ jsSplitWs (normalizeText (t ++ " " ++ k))) ∧
    (normalizeText (t ++ " " ++ k)).data ≠ [] := by
  have htk : wordTokens (preClean (t ++ " " ++ k)) =
      wordTokens (preClean t) ++ wordTokens (preClean k) := by
    have hsh : preClean (t ++ " " ++ k) = preClean t ++ ' ' :: preClean k := by
      rw [preClean_append, preClean_append, preClean_space]
      simp
    rw [hsh]
    exact wordTokensGo_append _ _ []
  have hne2 : wordTokens (preClean (t ++ " " ++ k)) ≠ [] := by
    rw [htk]
    intro hx
    exact norm_ne_tokens t h (List.append_eq_nil.mp hx).1
  have hnorm2 := tokens_ne_norm _ hne2
  refine ⟨?_, hnorm2⟩
  intro w hw
  rw [jsSplit_norm t h] at hw
  rw [jsSplit_norm _ hnorm2, htk, List.map_append]
  exact List.mem_append_left _ hw

lemma words_append_fold (t : String) (ks : List String) (h : (normalizeText t).data ≠ []) :
    (∀ w ∈ jsSplitWs (normalizeText t),
      w ∈ jsSplitWs (normalizeText (appendKeywords t ks))) ∧
    (normalizeText (appendKeywords t ks)).data ≠ [] := by
  induction ks generalizing t with
  | nil => exact ⟨fun w hw => hw, h⟩
  | cons k ks ih =>
    have hstep := words_append_step t k h
    have hrec := ih (t ++ " " ++ k) hstep.2
    exact ⟨fun w hw => hrec.1 w (hstep.1 w hw), hrec.2⟩

lemma filter_length_mono {α : Type} (l : List α) (p q : α → Bool)
    (h : ∀ a, p a = true → q a = true) :
    (l.filter p).length ≤ (l.filter q).length := by
  induction l with
  | nil => simp
  | cons a l ih =>
    by_cases hp : p a = true
    · rw [List.filter_cons_of_pos hp, List.filter_cons_of_pos (h a hp)]
      simpa using ih
    · rw [List.filter_cons_of_neg (by simpa using hp)]
      by_cases hq : q a = true
      · rw [List.filter_cons_of_pos hq]
        exact le_trans ih (by simp)
      · rw [List.filter_cons_of_neg (by simpa using hq)]
        exact ih

lemma contains_mono {l1 l2 : List String} (hsub : ∀ w ∈ l1, w ∈ l2) (a : String)
    (ha : l1.contains a = true) : l2.contains a = true := by
  have h1 : a ∈ l1 := by
    rw [show l1.contains a = l1.elem a from rfl, List.elem_iff] at ha
    exact ha
  rw [show l2.contains a = l2.elem a from rfl, List.elem_iff]
  exact hsub a h1

lemma any_mono {l1 l2 : List String} (hsub : ∀ w ∈ l1, w ∈ l2) (p : String → Bool)
    (h : l1.any p = true) : l2.any p = true := by
  rw [List.any_eq_true] at h ⊢
  obtain ⟨x, hx, hpx⟩ := h
  exact ⟨x, hsub x hx, hpx⟩

lemma overlapScore_mono (e : BotSettingKey) (iw1 iw2 : List String)
    (hsub : ∀ w ∈ iw1, w ∈ iw2) : overlapScore e iw1 ≤ overlapScore e iw2 := by
  unfold overlapScore
  have hc : (((entryWordList e).filter (fun word => iw1.contains word)).length : ℚ) ≤
      (((entryWordList e).filter (fun word => iw2.contains word)).length : ℚ) := by
    exact_mod_cast filter_length_mono _ _ _ (fun a ha => contains_mono hsub a ha)
  have hlen : (0:ℚ) < ((entryWordList e).length : ℚ) := by
    exact_mod_cast List.length_pos.mpr (entryWordList_ne_nil e)
  exact div_le_div_of_nonneg_right hc hlen.le

lemma getD_map_overlap_mono (l : List BotSettingKey) (iw1 iw2 : List String)
    (hsub : ∀ w ∈ iw1, w ∈ iw2) :
    ∀ n : Nat, (l.map (fun x => overlapScore x iw1)).getD n 0 ≤
      (l.map (fun x => overlapScore x iw2)).getD n 0 := by
  induction l with
  | nil => intro n; simp [List.getD]
  | cons e l ih =>
    intro n
    cases n with
    | zero => simpa [List.getD] using overlapScore_mono e iw1 iw2 hsub
    | succ m => simpa [List.getD] using ih m

lemma resultHybrid_def (iw : List String) (e : BotSettingKey) (s : Option ℚ) :
    resultHybrid iw ⟨e, s⟩ =
      if iw.any (fun word =>
          (jsSplitWs (normalizeText e.key)).any fun kw => strIncludes kw word) then
        ((1 - s.getD 1) +
          (if settingIdx e.key < 0 then 0
            else (botSettingKeys.map (fun x => overlapScore x iw)).getD
              (settingIdx e.key).toNat 0) + 0.2) / 2
      else
        ((1 - s.getD 1) +
          (if settingIdx e.key < 0 then 0
            else (botSettingKeys.map (fun x => overlapScore x iw)).getD
              (settingIdx e.key).toNat 0)) / 2 := rfl

lemma resultHybrid_mono (e : BotSettingKey) (s s2 : Option ℚ) (iw1 iw2 : List String)
    (hsub : ∀ w ∈ iw1, w ∈ iw2) (hscore : s2.getD 1 ≤ s.getD 1) :
    resultHybrid iw1 ⟨e, s⟩ ≤ resultHybrid iw2 ⟨e, s2⟩ := by
  rw [resultHybrid_def, resultHybrid_def]
  have hov : (if settingIdx e.key < 0 then (0:ℚ)
        else (botSettingKeys.map (fun x => overlapScore x iw1)).getD
          (settingIdx e.key).toNat 0) ≤
      (if settingIdx e.key < 0 then (0:ℚ)
        else (botSettingKeys.map (fun x => overlapScore x iw2)).getD
          (settingIdx e.key).toNat 0) := by
    by_cases hidx : settingIdx e.key < 0
    · simp [hidx]
    · simp only [if_neg hidx]
      exact getD_map_overlap_mono _ _ _ hsub _
  have hfs : (1:ℚ) - s.getD 1 ≤ 1 - s2.getD 1 := by linarith
  have h02 : (0:ℚ) ≤ 0.2 := by norm_num
  by_cases h1 : iw1.any (fun word =>
      (jsSplitWs (normalizeText e.key)).any fun kw => strIncludes kw word) = true
  · rw [if_pos h1, if_pos (any_mono hsub _ h1)]
    linarith
  · rw [if_neg h1]
    by_cases h2 : iw2.any (fun word =>
        (jsSplitWs (normalizeText e.key)).any fun kw => strIncludes kw word) = true
    · rw [if_pos h2]
      linarith
    · rw [if_neg h2]
      linarith

/-- C7 counterexample: appending the Stripe entry's own keyword "payment" to
the input "???" strictly decreases that entry's hybrid score even at an
unchanged similarity score: the normalized form of "???" is empty, its word
set is the singleton empty string, which is a substring of every key word (the
0.2 boost applies, overlap 0), while after appending, the word set is
{"payment"}, the boost is lost and only overlap 1/14 is gained
(3/5 drops to 15/28). -/
theorem resultHybrid_monotone_counterexample :
    "payment" ∈ stripeEntry.keywords ∧ stripeEntry ∈ botSettingKeys ∧
    resultHybrid (jsSplitWs (normalizeText (appendKeywords "???" ["payment"])))
        ⟨stripeEntry, some 0⟩ <
      resultHybrid (jsSplitWs (normalizeText "???")) ⟨stripeEntry, some 0⟩ :=
  ⟨by decide, by decide, by with_unfolding_all decide⟩

/-- C7 (amended): for every catalog entry `e` and input text `t` whose
normalized form is non-empty, appending any of `e`'s own keywords verbatim to
`t` never lowers `e`'s hybrid score, provided the external similarity score
for `e` does not decrease — appending only grows the input word set, which
can only raise the overlap score and preserve the partial-match boost.  (The
two added hypotheses are forced: on a text normalizing to the empty string
the boost can be lost, and the external matcher may score the longer query
worse.) -/
theorem resultHybrid_monotone_amended (e : BotSettingKey) (s s2 : Option ℚ) (t : String)
    (ks : List String) (_hks : ∀ k ∈ ks, k ∈ e.keywords)
    (hscore : s2.getD 1 ≤ s.getD 1) (hnt : normalizeText t ≠ "") :
    resultHybrid (jsSplitWs (normalizeText t)) ⟨e, s⟩ ≤
      resultHybrid (jsSplitWs (normalizeText (appendKeywords t ks))) ⟨e, s2⟩ := by
  obtain ⟨hsub, _⟩ := words_append_fold t ks (data_ne_of_ne_empty hnt)
  exact resultHybrid_mono e s s2 _ _ hsub hscore

/-- Witness for C7 (amended) at the Stripe entry, its keyword "payment", and
the input "set stripe id". -/
theorem resultHybrid_monotone_amended_witness :
    (∀ k ∈ ["payment"], k ∈ stripeEntry.keywords) ∧
    normalizeText "set stripe id" ≠ "" ∧
    resultHybrid (jsSplitWs (normalizeText "set stripe id")) ⟨stripeEntry, some 0⟩ ≤
      resultHybrid (jsSplitWs (normalizeText (appendKeywords "set stripe id" ["payment"])))
        ⟨stripeEntry, some 0⟩ :=
  ⟨by decide, by decide,
    resultHybrid_monotone_amended stripeEntry (some 0) (some 0) "set stripe id"
      ["payment"] (by decide) (le_refl _) (by decide)⟩
